import Mathlib

/-!
Verification of the LogWizzy log summarizer (src/lw_main.go, the v0.2
variant, which is the complete one in scope).

The embedding is shallow: every Go function of the core pipeline is
translated to an executable Lean definition.  Machine integers (`int64`)
are modelled as `Int` with an explicit two's-complement wrap `wrap64`;
`time.Time` values are modelled as `Int` nanoseconds since the Unix epoch
(`time.Unix(0, n)` is the instant with `UnixNano = n`); the Go `error`
result of `parseTimestamp` is modelled with `Except String`.  The Go map
`map[string]*MessageGroup` is modelled as an association list with unique
keys; the in-place mutation of the aggregation loop becomes explicit
state passing.  Library functions of the Go standard library that the
core calls (`strings.TrimSpace`, `strings.ToLower`, `json.Unmarshal`,
`sort.Slice`) are not repository code: `TrimSpace`/`ToLower` are modelled
by structural character-list functions, `json.Unmarshal` is a parameter
of the scan loop (an oracle producing the decoded key/value object or
failing), and `sort.Slice` is modelled as a deterministic comparison sort
over the comparator translated verbatim from the source.
-/

set_option maxRecDepth 8000

/-- Model of Go `unicode.IsSpace` restricted to the Latin-1 range that Go
treats as white space: space, tab, newline, vertical tab, form feed,
carriage return, NEL (U+0085) and NBSP (U+00A0). -/
def isSpaceChar (c : Char) : Bool :=
  c = ' ' || c = '\t' || c = '\n' || c.toNat = 11 || c.toNat = 12 ||
    c = '\r' || c.toNat = 0x85 || c.toNat = 0xA0

/-- Model of Go `strings.TrimSpace`: drop white space from both ends. -/
def trimStr (s : String) : String :=
  ⟨((s.data.dropWhile isSpaceChar).reverse.dropWhile isSpaceChar).reverse⟩

/-- Model of Go `strings.ToLower` (ASCII letters; the severity tokens the
program compares against are all ASCII). -/
def lowerStr (s : String) : String :=
  ⟨s.data.map Char.toLower⟩

/-- Lexicographic order on character lists: model of Go string `<`
(byte-wise lexicographic comparison coincides with code-point
lexicographic comparison on UTF-8 data). -/
def charListLt : List Char → List Char → Bool
  | _, [] => false
  | [], _ :: _ => true
  | a :: as, b :: bs => a < b || (a = b && charListLt as bs)

/-- Go string comparison `a < b` used by the sort comparator. -/
def strLt (a b : String) : Bool :=
  charListLt a.data b.data

/-- Non-strict string order: `a` is at most `b`. -/
def strLe (a b : String) : Prop :=
  strLt b a = false

/-- Translation of `mapPriority` (src/lw_main.go lines 27-41): map
journalctl numeric/text PRIORITY tokens to the level tags used by the
program.  The tags realize the spec's severity levels: "CRIT" is
CRITICAL, "ERRO" is ERROR, "WARN" is WARNING, "INFO" is INFO, and "UNKN"
is UNKNOWN.  The Go `switch` over the lowercased, trimmed token is a
chain of equality tests. -/
def mapPriority (p : String) : String :=
  let t := lowerStr (trimStr p)
  if t = "0" || t = "emerg" || t = "emergency" || t = "1" || t = "alert" ||
      t = "2" || t = "crit" then "CRIT"
  else if t = "3" || t = "err" || t = "error" then "ERRO"
  else if t = "4" || t = "warn" || t = "warning" then "WARN"
  else if t = "5" || t = "notice" || t = "info" then "INFO"
  else "UNKN"

/-- The severity table exactly as the spec states it (spec section 4.1):
membership of the lowercased, trimmed token in the listed sets.  This
definition follows the spec's words and is compared with `mapPriority`,
the definition translated from the source. -/
def specNormalize (p : String) : String :=
  let t := lowerStr (trimStr p)
  if t ∈ ["0", "emerg", "emergency", "1", "alert", "2", "crit"] then "CRIT"
  else if t ∈ ["3", "err", "error"] then "ERRO"
  else if t ∈ ["4", "warn", "warning"] then "WARN"
  else if t ∈ ["5", "notice", "info"] then "INFO"
  else "UNKN"

/-- Two's-complement wrap of an integer to the signed 64-bit range,
modelling Go `int64` overflow (defined behavior in Go: wrap around). -/
def wrap64 (x : Int) : Int :=
  (x + 2 ^ 63) % 2 ^ 64 - 2 ^ 63

/-- One loop iteration of `parseInt64` (src/lw_main.go lines 91-95):
`v = v*10 + int64(r - '0')` for a decimal digit `r`, in a Go `int64`
(hence wrapped), and no change for any other character. -/
def wstep (v : Int) (r : Char) : Int :=
  if '0' ≤ r && r ≤ '9' then wrap64 (v * 10 + ((r.toNat : Int) - ('0'.toNat : Int)))
  else v

/-- The same iteration with exact integer arithmetic (no 64-bit wrap):
the accumulation the spec's words describe. -/
def pstep (v : Int) (r : Char) : Int :=
  if '0' ≤ r && r ≤ '9' then v * 10 + ((r.toNat : Int) - ('0'.toNat : Int))
  else v

/-- Translation of `parseInt64` (src/lw_main.go lines 89-97): fold over
the characters, accumulating `v = v*10 + digit` in a Go `int64` for every
decimal digit and ignoring every other character.  The Go function also
returns an `error` result that is always `nil`; that component is dropped
here and accounted for at the call site in `parseTimestamp`. -/
def parseInt64 (s : String) : Int :=
  s.data.foldl wstep 0

/-- The exact decimal value of the digit characters of a token, with no
64-bit wrap: the value the spec's words describe ("accumulating a numeric
value" over the digits).  Compared with `parseInt64` to delimit where the
source's `int64` accumulator agrees with it. -/
def digitsVal (s : String) : Int :=
  s.data.foldl pstep 0

/-- Translation of `parseTimestamp` (src/lw_main.go lines 77-86): trim
the token; an empty result is a decode failure; otherwise convert the
accumulated microsecond value to nanoseconds (`v*1000`, an `int64`
multiplication, hence wrapped) and return the instant `time.Unix(0,
v*1000)`.  Because `parseInt64` always returns a `nil` error, the
`err == nil` branch is always taken and the trailing "unsupported
timestamp format" return of the source is unreachable. -/
def parseTimestamp (s : String) : Except String Int :=
  let t := trimStr s
  if t = "" then Except.error "empty timestamp"
  else Except.ok (wrap64 (parseInt64 t * 1000))

instance : DecidableEq (Except String Int) := fun a b =>
  match a, b with
  | Except.error e, Except.error f =>
    if h : e = f then Decidable.isTrue (congrArg Except.error h)
    else Decidable.isFalse (fun c => h (Except.error.inj c))
  | Except.ok x, Except.ok y =>
    if h : x = y then Decidable.isTrue (congrArg Except.ok h)
    else Decidable.isFalse (fun c => h (Except.ok.inj c))
  | Except.error _, Except.ok _ => Decidable.isFalse (fun c => Except.noConfusion c)
  | Except.ok _, Except.error _ => Decidable.isFalse (fun c => Except.noConfusion c)

/-- Translation of `MessageGroup` (src/lw_main.go lines 19-24). -/
structure MessageGroup where
  Sample : String
  Count : Nat
  Level : String
  Times : List Int
deriving DecidableEq

/-- One parsed record as the spec's Record Parser produces it (spec
section 3): message text plus the optional raw severity and timestamp
tokens, extracted from the decoded line by `parseRecord` below. -/
structure ParsedRecord where
  message : String
  rawSeverity : Option String
  rawTimestamp : Option String
deriving DecidableEq

/-- Severity stored for a record (src/lw_main.go lines 208-211): apply
`mapPriority` when the PRIORITY token is present, else the literal
"UNKN". -/
def recordPri (r : ParsedRecord) : String :=
  match r.rawSeverity with
  | some p => mapPriority p
  | none => "UNKN"

/-- Occurrence timestamp for a record (src/lw_main.go lines 213-218):
the decoded instant when the token is present and decodes, else the
current wall clock `now`. -/
def recordTs (now : Int) (r : ParsedRecord) : Int :=
  match r.rawTimestamp with
  | some t =>
    match parseTimestamp t with
    | Except.ok v => v
    | Except.error _ => now
  | none => now

/-- The group-map update of the aggregation loop (src/lw_main.go lines
220-227), on the association-list model of the Go map: if a group exists
under the exact message text, increment its count and append the
timestamp, leaving sample and level untouched; otherwise add a fresh
group with count 1. -/
def updateGroups (msg pri : String) (ts : Int) :
    List (String × MessageGroup) → List (String × MessageGroup)
  | [] => [(msg, { Sample := msg, Count := 1, Level := pri, Times := [ts] })]
  | (k, g) :: rest =>
    if k = msg then
      (k, { g with Count := g.Count + 1, Times := g.Times ++ [ts] }) :: rest
    else
      (k, g) :: updateGroups msg pri ts rest

/-- One aggregation step for a parsed record, at wall-clock `now`
(src/lw_main.go lines 208-227). -/
def ingest (now : Int) (gs : List (String × MessageGroup)) (r : ParsedRecord) :
    List (String × MessageGroup) :=
  updateGroups r.message (recordPri r) (recordTs now r) gs

/-- Folding a sequence of records, each paired with the wall-clock value
`time.Now()` read while it is processed, into the group map. -/
def ingestAll (gs : List (String × MessageGroup))
    (rs : List (ParsedRecord × Int)) : List (String × MessageGroup) :=
  rs.foldl (fun acc p => ingest p.2 acc p.1) gs

/-- Decoded JSON values as Go `encoding/json` produces them inside a
`map[string]interface{}`: the only structure the program inspects is
whether a field's value is a string, via the type assertions
`.(string)`. -/
inductive JValue where
  | str : String → JValue
  | num : Int → JValue
  | boolean : Bool → JValue
  | null : JValue
  | arr : List JValue → JValue
  | obj : List (String × JValue) → JValue

/-- Extraction of the three fields from a decoded line (src/lw_main.go
lines 203-218): each Go type assertion `raw[k].(string)` succeeds exactly
when the field is present with a string value.  MESSAGE defaults to the
empty string; the other two fields default to absent. -/
def parseRecord (raw : List (String × JValue)) : ParsedRecord where
  message :=
    match raw.lookup "MESSAGE" with
    | some (JValue.str m) => m
    | _ => ""
  rawSeverity :=
    match raw.lookup "PRIORITY" with
    | some (JValue.str p) => some p
    | _ => none
  rawTimestamp :=
    match raw.lookup "__REALTIME_TIMESTAMP" with
    | some (JValue.str t) => some t
    | _ => none

/-- One iteration of the scan loop (src/lw_main.go lines 192-228): skip
the line when it trims to empty; skip it when `json.Unmarshal` fails
(`unmarshal` is the stdlib JSON decoder, a parameter of the model);
otherwise fold the parsed record into the group map. -/
def processLine (unmarshal : String → Option (List (String × JValue)))
    (now : Int) (gs : List (String × MessageGroup)) (line : String) :
    List (String × MessageGroup) :=
  if trimStr line = "" then gs
  else
    match unmarshal line with
    | none => gs
    | some raw => ingest now gs (parseRecord raw)

/-- The whole scan loop over a stream of lines, each paired with the
wall-clock value read while it is processed. -/
def processAll (unmarshal : String → Option (List (String × JValue)))
    (gs : List (String × MessageGroup)) (lines : List (String × Int)) :
    List (String × MessageGroup) :=
  lines.foldl (fun acc p => processLine unmarshal p.2 acc p.1) gs

/-- The numeric severity rank of the sort comparator (src/lw_main.go
line 241): the map literal assigns CRIT and ERRO rank 3, WARN 2, INFO 1,
UNKN 0; looking up any other tag in the Go map yields the zero value 0. -/
def priorityRank (l : String) : Nat :=
  if l = "CRIT" then 3
  else if l = "ERRO" then 3
  else if l = "WARN" then 2
  else if l = "INFO" then 1
  else 0

/-- Translation of the `sort.Slice` comparator (src/lw_main.go lines
240-260).  `sevFirst` is true when the program runs with `-e` or `-i`
(errors-only or important view): then severity rank decides first,
count descending within equal rank, sample text ascending last.  In the
default frequency mode only count descending then sample ascending. -/
def lessGroups (sevFirst : Bool) (a b : MessageGroup) : Bool :=
  if sevFirst then
    if priorityRank a.Level = priorityRank b.Level then
      if a.Count = b.Count then strLt a.Sample b.Sample
      else b.Count < a.Count
    else priorityRank b.Level < priorityRank a.Level
  else
    if a.Count = b.Count then strLt a.Sample b.Sample
    else b.Count < a.Count

/-- The non-strict order induced by the comparator: `a` may precede `b`
exactly when the comparator does not order `b` strictly before `a`. -/
def leGroups (sevFirst : Bool) (a b : MessageGroup) : Prop :=
  lessGroups sevFirst b a = false

instance (m : Bool) : DecidableRel (leGroups m) :=
  fun a b => inferInstanceAs (Decidable (lessGroups m b a = false))

/-- The Ranker: `sort.Slice` with the comparator above, modelled as a
deterministic comparison sort producing a sequence sorted with respect
to `leGroups` (the exact guarantee `sort.Slice` gives for its
comparator). -/
def rank (sevFirst : Bool) (l : List MessageGroup) : List MessageGroup :=
  l.insertionSort (leGroups sevFirst)

/-- The frequency-mode order the spec describes: count descending, ties
broken by sample text ascending. -/
def freqOrd (a b : MessageGroup) : Prop :=
  b.Count < a.Count ∨ (a.Count = b.Count ∧ strLe a.Sample b.Sample)

/-- The severity-mode order the spec describes: severity rank descending
first, then count descending, then sample text ascending. -/
def sevOrd (a b : MessageGroup) : Prop :=
  priorityRank b.Level < priorityRank a.Level ∨
    (priorityRank a.Level = priorityRank b.Level ∧
      (b.Count < a.Count ∨ (a.Count = b.Count ∧ strLe a.Sample b.Sample)))

/-- The aggregation invariant of spec section 3: group keys are
pairwise distinct, and every group counts exactly its recorded
occurrence timestamps, at least one. -/
def GroupsInv (gs : List (String × MessageGroup)) : Prop :=
  (gs.map Prod.fst).Nodup ∧
    ∀ p ∈ gs, p.2.Count = p.2.Times.length ∧ 1 ≤ p.2.Count

instance (gs : List (String × MessageGroup)) : Decidable (GroupsInv gs) :=
  inferInstanceAs (Decidable (_ ∧ _))

/-! ### Severity normalizer -/

/-- Claim C5: the severity normalizer is total — every input string is
mapped to exactly one of the five level tags — and it realizes the spec's
fixed table (`specNormalize`, the table transcribed from the spec's
words) after lowercasing and whitespace-trimming.  The code tags realize
the spec levels as "CRIT" = CRITICAL, "ERRO" = ERROR, "WARN" = WARNING,
"INFO" = INFO, "UNKN" = UNKNOWN. -/
theorem mapPriority_total_table (s : String) :
    mapPriority s = specNormalize s ∧
      (mapPriority s = "CRIT" ∨ mapPriority s = "ERRO" ∨ mapPriority s = "WARN" ∨
        mapPriority s = "INFO" ∨ mapPriority s = "UNKN") := by
  unfold mapPriority specNormalize
  constructor
  · simp [List.mem_cons, or_assoc]
  · dsimp only
    split_ifs <;> simp

/-! ### PRIORITY field type assertion -/

/-- Claim C10: a PRIORITY field whose decoded value is not a string (for
example the JSON number 3) leaves the record's severity at "UNKN",
exactly as when the field is absent; `mapPriority` is only reached
through the string type assertion of src/lw_main.go line 209. -/
theorem priority_nonstring_unknown (raw raw' : List (String × JValue)) (v : JValue)
    (h : raw.lookup "PRIORITY" = some v) (hv : ∀ s, v ≠ JValue.str s)
    (h' : raw'.lookup "PRIORITY" = none) :
    recordPri (parseRecord raw) = "UNKN" ∧ recordPri (parseRecord raw') = "UNKN" := by
  constructor
  · have hsev : (parseRecord raw).rawSeverity = none := by
      unfold parseRecord
      simp only [h]
      cases v with
      | str p => exact absurd rfl (hv p)
      | num n => rfl
      | boolean b => rfl
      | null => rfl
      | arr l => rfl
      | obj l => rfl
    unfold recordPri
    rw [hsev]
  · have hsev : (parseRecord raw').rawSeverity = none := by
      unfold parseRecord
      simp only [h']
    unfold recordPri
    rw [hsev]

/-- Witness for C10 at a record whose PRIORITY is the JSON number 3 and
at a record with no PRIORITY field. -/
theorem priority_nonstring_unknown_app :
    recordPri (parseRecord [("PRIORITY", JValue.num 3)]) = "UNKN" ∧
      recordPri (parseRecord []) = "UNKN" :=
  priority_nonstring_unknown [("PRIORITY", JValue.num 3)] [] (JValue.num 3) rfl
    (fun _ c => JValue.noConfusion c) rfl

/-! ### Timestamp decoder -/

/-- Claim C6 counterexample: the claim says `decode("abc")` is a decode
failure that makes the aggregator substitute the current wall-clock time.
On the code, `parseInt64` never returns a non-nil error, so
`parseTimestamp "abc"` succeeds with accumulated value 0 — the Unix
epoch — and a record carrying the token "abc" is stamped with the epoch
instant 0, not with `now` (here 999). -/
theorem parseTimestamp_abc_ok :
    parseTimestamp "abc" = Except.ok 0 ∧
      recordTs 999 { message := "m", rawSeverity := none, rawTimestamp := some "abc" } = 0 := by
  constructor <;> decide

/-- Claim C6 (amended): the decoder fails exactly on tokens that trim to
the empty string, and on those the aggregator substitutes the current
wall-clock time; every token that is non-empty after trimming decodes
successfully, an all-non-digit token such as "abc" decoding to the epoch
instant 0, so the now-fallback does not trigger for it. -/
theorem parseTimestamp_fail_cases (s t : String) (now : Int) (r : ParsedRecord)
    (h : trimStr s = "") (hr : r.rawTimestamp = some s) (ht : trimStr t ≠ "") :
    parseTimestamp s = Except.error "empty timestamp" ∧ recordTs now r = now ∧
      (∃ v, parseTimestamp t = Except.ok v) ∧ parseTimestamp "abc" = Except.ok 0 := by
  have hs : parseTimestamp s = Except.error "empty timestamp" := by
    unfold parseTimestamp
    rw [h]
    rfl
  refine ⟨hs, ?_, ?_, by decide⟩
  · unfold recordTs
    rw [hr]
    dsimp only
    rw [hs]
  · unfold parseTimestamp
    rw [if_neg ht]
    exact ⟨_, rfl⟩

/-- Witness for C6 (amended) at the whitespace-only token " " with
wall clock 999 and at the digit-free token "abc". -/
theorem parseTimestamp_fail_cases_app :
    parseTimestamp " " = Except.error "empty timestamp" ∧
      recordTs 999 { message := "m", rawSeverity := none, rawTimestamp := some " " } = 999 ∧
      (∃ v, parseTimestamp " abc " = Except.ok v) ∧ parseTimestamp "abc" = Except.ok 0 :=
  parseTimestamp_fail_cases " " " abc " 999
    { message := "m", rawSeverity := none, rawTimestamp := some " " }
    (by decide) rfl (by decide)

/-- A digit step never decreases a non-negative exact accumulator and
keeps it non-negative. -/
theorem pstep_le (v : Int) (r : Char) (h : 0 ≤ v) : v ≤ pstep v r := by
  unfold pstep
  split
  · rename_i hc
    rw [Bool.and_eq_true, decide_eq_true_eq, decide_eq_true_eq] at hc
    have h48 : 48 ≤ r.toNat := by
      have := hc.1
      simp [Char.le_def] at this
      exact this
    have hcast : (48 : Int) ≤ (r.toNat : Int) := by exact_mod_cast h48
    have hz : ('0'.toNat : Int) = 48 := rfl
    omega
  · exact le_refl v

/-- The exact accumulator never decreases along the fold. -/
theorem le_foldl_pstep : ∀ (l : List Char) (v : Int), 0 ≤ v → v ≤ l.foldl pstep v
  | [], v, _ => le_refl v
  | r :: l, v, h =>
    le_trans (pstep_le v r h)
      (le_foldl_pstep l (pstep v r) (le_trans h (pstep_le v r h)))

/-- `wrap64` is the identity on values inside the signed 64-bit range. -/
theorem wrap64_eq_self (x : Int) (h1 : -(2 ^ 63) ≤ x) (h2 : x < 2 ^ 63) : wrap64 x = x := by
  unfold wrap64
  rw [Int.emod_eq_of_lt (by omega) (by omega)]
  omega

/-- As long as the exact value stays below `2^63`, the 64-bit accumulator
of `parseInt64` agrees with the exact accumulation. -/
theorem foldl_wstep_eq_pstep :
    ∀ (l : List Char) (v : Int), 0 ≤ v → l.foldl pstep v < 2 ^ 63 →
      l.foldl wstep v = l.foldl pstep v
  | [], _, _, _ => rfl
  | r :: l, v, h0, hlt => by
    have hps : 0 ≤ pstep v r := le_trans h0 (pstep_le v r h0)
    have hlt' : l.foldl pstep (pstep v r) < 2 ^ 63 := by rwa [List.foldl_cons] at hlt
    have hpl : pstep v r ≤ l.foldl pstep (pstep v r) := le_foldl_pstep l (pstep v r) hps
    have hb : pstep v r < 2 ^ 63 := lt_of_le_of_lt hpl hlt'
    have hw : wstep v r = pstep v r := by
      unfold wstep
      split
      · rename_i hc
        have hp : pstep v r = v * 10 + ((r.toNat : Int) - ('0'.toNat : Int)) := by
          unfold pstep
          rw [if_pos hc]
        rw [← hp]
        exact wrap64_eq_self _ (by omega) hb
      · rename_i hc
        unfold pstep
        rw [if_neg hc]
    rw [List.foldl_cons, List.foldl_cons, hw]
    exact foldl_wstep_eq_pstep l (pstep v r) hps hlt'

/-- Where the exact decimal value fits, `parseInt64` computes it. -/
theorem parseInt64_eq_digitsVal (s : String) (h : digitsVal s < 2 ^ 63) :
    parseInt64 s = digitsVal s :=
  foldl_wstep_eq_pstep s.data 0 (le_refl 0) h

/-- Claim C7 counterexample: the claim asserts for every token that is
non-empty after trimming that the decoder returns the instant at the
token's exact decimal digit value in microseconds.  At the 16-digit token
"9223372036854776" the nanosecond conversion `v*1000` overflows the Go
`int64` (9223372036854776000 exceeds 2^63 - 1 = 9223372036854775807), so
the decoder returns the wrapped — negative — instant instead of the
instant at 9223372036854776 microseconds. -/
theorem parseTimestamp_overflow_cex :
    parseTimestamp "9223372036854776" ≠
        Except.ok (digitsVal (trimStr "9223372036854776") * 1000) ∧
      parseTimestamp "9223372036854776" = Except.ok (-9223372036854775616) := by
  constructor <;> decide

/-- Claim C7 (amended): for every token that is non-empty after trimming
and whose exact digit value, converted to nanoseconds, fits the signed
64-bit range (`digitsVal (trimStr s) * 1000 < 2^63`), the decoder
succeeds with the instant at that many microseconds since the epoch
(`v` microseconds is the instant `v * 1000` in nanoseconds), silently
dropping every non-digit character of the token. -/
theorem parseTimestamp_digits (s : String) (h1 : trimStr s ≠ "")
    (h2 : digitsVal (trimStr s) * 1000 < 2 ^ 63) :
    parseTimestamp s = Except.ok (digitsVal (trimStr s) * 1000) := by
  have hd0 : 0 ≤ digitsVal (trimStr s) := le_foldl_pstep _ 0 (le_refl 0)
  have hdlt : digitsVal (trimStr s) < 2 ^ 63 := by omega
  unfold parseTimestamp
  rw [if_neg h1, parseInt64_eq_digitsVal _ hdlt, wrap64_eq_self _ (by omega) h2]

/-- Witness for C7 (amended) at the spec's example token
"1700000000000000": the decoder yields the instant at epoch-microsecond
1700000000000000, i.e. 1700000000000000000 nanoseconds. -/
theorem parseTimestamp_digits_app :
    parseTimestamp "1700000000000000" = Except.ok 1700000000000000000 := by
  have h := parseTimestamp_digits "1700000000000000" (by decide) (by decide)
  have e : digitsVal (trimStr "1700000000000000") * 1000 = 1700000000000000000 := by decide
  rw [e] at h
  exact h

/-! ### Aggregator -/

/-- Folding records that all carry message text `m` into a state holding
exactly the group for `m`: the count grows by the number of records, the
timestamps append in arrival order, and sample and level are untouched. -/
theorem ingestAll_cons_same (m : String) :
    ∀ (rws : List (ParsedRecord × Int)) (g : MessageGroup),
      (∀ p ∈ rws, p.1.message = m) →
      ingestAll [(m, g)] rws =
        [(m, { Sample := g.Sample, Count := g.Count + rws.length, Level := g.Level,
               Times := g.Times ++ rws.map (fun p => recordTs p.2 p.1) })] := by
  intro rws
  induction rws with
  | nil =>
    intro g _
    simp [ingestAll]
  | cons p rws ih =>
    intro g hm
    obtain ⟨r, now⟩ := p
    have hr : r.message = m := hm (r, now) (List.mem_cons_self _ _)
    have hstep : ingest now [(m, g)] r =
        [(m, { Sample := g.Sample, Count := g.Count + 1, Level := g.Level,
               Times := g.Times ++ [recordTs now r] })] := by
      unfold ingest updateGroups
      rw [hr, if_pos rfl]
    show ingestAll (ingest now [(m, g)] r) rws = _
    rw [hstep, ih _ (fun q hq => hm q (List.mem_cons_of_mem _ hq))]
    simp [List.append_assoc]
    omega

/-- Claim C1: folding N records that all carry the identical message text
into the empty group mapping yields exactly one group for that text, with
count N, the occurrence timestamps in arrival order (each record stamped
with the wall clock read while it was processed, when its own token does
not decode), and the severity computed from the first record's raw
severity token — the tokens of all later records are ignored. -/
theorem ingestAll_same_message (m : String) (rws : List (ParsedRecord × Int))
    (hne : rws ≠ []) (hm : ∀ p ∈ rws, p.1.message = m) :
    ingestAll [] rws =
      [(m, { Sample := m, Count := rws.length,
             Level := recordPri (rws.head hne).1,
             Times := rws.map (fun p => recordTs p.2 p.1) })] := by
  match rws, hne with
  | (r, now) :: rws, _ =>
    have hr : r.message = m := hm _ (List.mem_cons_self _ _)
    have h0 : ingest now [] r =
        [(r.message, { Sample := r.message, Count := 1, Level := recordPri r,
                       Times := [recordTs now r] })] := rfl
    show ingestAll (ingest now [] r) rws = _
    rw [h0, hr, ingestAll_cons_same m rws _ (fun q hq => hm q (List.mem_cons_of_mem _ hq))]
    simp
    omega

/-- Witness for C1: two records with message "boom", the first carrying
severity token "3" (ERRO) and timestamp token "100", the second carrying
severity token "4" and no timestamp (so its arrival wall clock 7 is
used).  The resulting single group counts 2, keeps ERRO from the first
record, and lists the two occurrence instants in arrival order. -/
theorem ingestAll_same_message_app :
    ingestAll []
      [({ message := "boom", rawSeverity := some "3", rawTimestamp := some "100" }, 5),
       ({ message := "boom", rawSeverity := some "4", rawTimestamp := none }, 7)] =
      [("boom", { Sample := "boom", Count := 2, Level := "ERRO", Times := [100000, 7] })] := by
  have h := ingestAll_same_message "boom"
    [({ message := "boom", rawSeverity := some "3", rawTimestamp := some "100" }, 5),
     ({ message := "boom", rawSeverity := some "4", rawTimestamp := none }, 7)]
    (by decide) (by decide)
  exact h

/-- The keys of the group mapping after an update: unchanged when the
message was already present, extended by exactly the new message
otherwise. -/
theorem updateGroups_fst (msg pri : String) (ts : Int) :
    ∀ gs : List (String × MessageGroup),
      (updateGroups msg pri ts gs).map Prod.fst =
        if msg ∈ gs.map Prod.fst then gs.map Prod.fst else gs.map Prod.fst ++ [msg]
  | [] => by simp [updateGroups]
  | (k, g) :: gs => by
    unfold updateGroups
    by_cases h : k = msg
    · subst h
      rw [if_pos rfl]
      simp
    · rw [if_neg h]
      simp only [List.map_cons]
      rw [updateGroups_fst msg pri ts gs]
      by_cases h2 : msg ∈ gs.map Prod.fst
      · rw [if_pos h2, if_pos (List.mem_cons_of_mem _ h2)]
      · have hnotin : msg ∉ k :: gs.map Prod.fst := by
          intro hc
          rcases List.mem_cons.1 hc with hc | hc
          · exact h hc.symm
          · exact h2 hc
        rw [if_neg h2, if_neg hnotin, List.cons_append]

/-- Every group after an update still counts exactly its timestamps and
at least one of them. -/
theorem updateGroups_entries (msg pri : String) (ts : Int) :
    ∀ gs, (∀ p ∈ gs, p.2.Count = p.2.Times.length ∧ 1 ≤ p.2.Count) →
      ∀ p ∈ updateGroups msg pri ts gs, p.2.Count = p.2.Times.length ∧ 1 ≤ p.2.Count
  | [], _, p, hp => by
    simp [updateGroups] at hp
    subst hp
    simp
  | (k, g) :: gs, hInv, p, hp => by
    unfold updateGroups at hp
    split at hp
    · rcases List.mem_cons.1 hp with h | h
      · subst h
        have := hInv (k, g) (List.mem_cons_self _ _)
        simp at this ⊢
        omega
      · exact hInv p (List.mem_cons_of_mem _ h)
    · rcases List.mem_cons.1 hp with h | h
      · subst h
        exact hInv (k, g) (List.mem_cons_self _ _)
      · exact updateGroups_entries msg pri ts gs
          (fun q hq => hInv q (List.mem_cons_of_mem _ hq)) p h

/-- A key resolves in the updated mapping exactly when it is the ingested
message or it already resolved before the update. -/
theorem lookup_updateGroups_isSome (msg pri : String) (ts : Int) (key : String) :
    ∀ gs : List (String × MessageGroup),
      ((updateGroups msg pri ts gs).lookup key).isSome = true ↔
        (key = msg ∨ (gs.lookup key).isSome = true)
  | [] => by
    unfold updateGroups
    by_cases h : key = msg
    · subst h
      simp [List.lookup]
    · have hb : (key == msg) = false := by simp [h]
      simp [List.lookup, hb, h]
  | (k, g) :: gs => by
    unfold updateGroups
    by_cases h : k = msg
    · subst h
      rw [if_pos rfl]
      by_cases h2 : key = k
      · subst h2
        simp [List.lookup]
      · have hb : (key == k) = false := by simp [h2]
        simp [List.lookup, hb, h2]
    · rw [if_neg h]
      by_cases h2 : key = k
      · subst h2
        simp [List.lookup]
      · have hb : (key == k) = false := by simp [h2]
        simp only [List.lookup, hb]
        exact lookup_updateGroups_isSome msg pri ts key gs

/-- Claim C2: one aggregation step preserves the group-mapping invariant
(pairwise-distinct keys; every group's count equals the length of its
occurrence list and is at least 1), never removes a group that resolved
before the step, and afterwards the ingested record's message text
resolves to a group. -/
theorem ingest_preserves_inv (gs : List (String × MessageGroup)) (now : Int)
    (r : ParsedRecord) (key : String) (h : GroupsInv gs)
    (hk : (gs.lookup key).isSome = true) :
    GroupsInv (ingest now gs r) ∧
      ((ingest now gs r).lookup key).isSome = true ∧
      ((ingest now gs r).lookup r.message).isSome = true := by
  obtain ⟨hnd, hent⟩ := h
  refine ⟨⟨?_, ?_⟩, ?_, ?_⟩
  · unfold ingest
    rw [updateGroups_fst]
    split_ifs with hmem
    · exact hnd
    · simp [List.nodup_append, hnd, hmem]
  · exact updateGroups_entries _ _ _ _ hent
  · exact (lookup_updateGroups_isSome _ _ _ _ _).2 (Or.inr hk)
  · exact (lookup_updateGroups_isSome _ _ _ _ _).2 (Or.inl rfl)

/-- Witness for C2: ingesting a record with the fresh message "b" into a
valid one-group mapping keyed "a" keeps the invariant, keeps "a"
resolvable, and makes "b" resolvable. -/
theorem ingest_preserves_inv_app :
    GroupsInv (ingest 0 [("a", { Sample := "a", Count := 1, Level := "INFO", Times := [0] })]
        { message := "b", rawSeverity := none, rawTimestamp := none }) ∧
      ((ingest 0 [("a", { Sample := "a", Count := 1, Level := "INFO", Times := [0] })]
          { message := "b", rawSeverity := none, rawTimestamp := none }).lookup "a").isSome = true ∧
      ((ingest 0 [("a", { Sample := "a", Count := 1, Level := "INFO", Times := [0] })]
          { message := "b", rawSeverity := none, rawTimestamp := none }).lookup "b").isSome = true :=
  ingest_preserves_inv [("a", { Sample := "a", Count := 1, Level := "INFO", Times := [0] })] 0
    { message := "b", rawSeverity := none, rawTimestamp := none } "a" (by decide) (by decide)

/-! ### Ranker -/

/-- The character-list order is asymmetric. -/
theorem charListLt_asymm : ∀ (x y : List Char), charListLt x y = true → charListLt y x = false := by
  intro x
  induction x with
  | nil =>
    intro y h
    cases y with
    | nil => simp [charListLt] at h
    | cons b bs => simp [charListLt]
  | cons a as ih =>
    intro y h
    cases y with
    | nil => simp [charListLt] at h
    | cons b bs =>
      simp only [charListLt, Bool.or_eq_true, Bool.and_eq_true, decide_eq_true_eq] at h
      simp only [charListLt, Bool.or_eq_false_iff, Bool.and_eq_false_iff,
        decide_eq_false_iff_not]
      rcases h with hlt | ⟨he, hr⟩
      · refine ⟨lt_asymm hlt, Or.inl fun c => ?_⟩
        subst c
        exact lt_irrefl _ hlt
      · subst he
        exact ⟨fun c => lt_irrefl a c, Or.inr (ih bs hr)⟩

/-- The character-list order is transitive. -/
theorem charListLt_trans :
    ∀ (x y z : List Char), charListLt x y = true → charListLt y z = true →
      charListLt x z = true := by
  intro x
  induction x with
  | nil =>
    intro y z h1 h2
    cases y with
    | nil => simp [charListLt] at h1
    | cons b bs =>
      cases z with
      | nil => simp [charListLt] at h2
      | cons c cs => simp [charListLt]
  | cons a as ih =>
    intro y z h1 h2
    cases y with
    | nil => simp [charListLt] at h1
    | cons b bs =>
      cases z with
      | nil => simp [charListLt] at h2
      | cons c cs =>
        simp only [charListLt, Bool.or_eq_true, Bool.and_eq_true, decide_eq_true_eq] at h1 h2 ⊢
        rcases h1 with h1 | ⟨he1, hr1⟩
        · rcases h2 with h2 | ⟨he2, hr2⟩
          · exact Or.inl (lt_trans h1 h2)
          · subst he2
            exact Or.inl h1
        · subst he1
          rcases h2 with h2 | ⟨he2, hr2⟩
          · exact Or.inl h2
          · subst he2
            exact Or.inr ⟨rfl, ih bs cs hr1 hr2⟩

/-- Two character lists neither of which is below the other are equal. -/
theorem charListLt_conn :
    ∀ (x y : List Char), charListLt x y = false → charListLt y x = false → x = y := by
  intro x
  induction x with
  | nil =>
    intro y h1 _
    cases y with
    | nil => rfl
    | cons b bs => simp [charListLt] at h1
  | cons a as ih =>
    intro y h1 h2
    cases y with
    | nil => simp [charListLt] at h2
    | cons b bs =>
      simp only [charListLt, Bool.or_eq_false_iff, Bool.and_eq_false_iff,
        decide_eq_false_iff_not] at h1 h2
      rcases lt_trichotomy a b with h | h | h
      · exact absurd h h1.1
      · subst h
        rcases h1.2 with hc | hr1
        · exact absurd rfl hc
        · rcases h2.2 with hc | hr2
          · exact absurd rfl hc
          · rw [ih bs hr1 hr2]
      · exact absurd h h2.1

/-- String-level asymmetry of the Go string order. -/
theorem strLt_asymm (a b : String) (h : strLt a b = true) : strLt b a = false :=
  charListLt_asymm a.data b.data h

/-- String-level transitivity of the Go string order. -/
theorem strLt_trans (a b c : String) (h1 : strLt a b = true) (h2 : strLt b c = true) :
    strLt a c = true :=
  charListLt_trans a.data b.data c.data h1 h2

/-- Strings neither of which is below the other are equal. -/
theorem strLt_conn (a b : String) (h1 : strLt a b = false) (h2 : strLt b a = false) : a = b :=
  congrArg String.mk (charListLt_conn a.data b.data h1 h2)

/-- Characterization of the frequency-mode comparator. -/
theorem lessGroups_false_iff (a b : MessageGroup) :
    lessGroups false a b = true ↔
      b.Count < a.Count ∨ (a.Count = b.Count ∧ strLt a.Sample b.Sample = true) := by
  unfold lessGroups
  by_cases hc : a.Count = b.Count <;> simp [hc]

/-- Characterization of the severity-mode comparator. -/
theorem lessGroups_true_iff (a b : MessageGroup) :
    lessGroups true a b = true ↔
      priorityRank b.Level < priorityRank a.Level ∨
        (priorityRank a.Level = priorityRank b.Level ∧
          (b.Count < a.Count ∨ (a.Count = b.Count ∧ strLt a.Sample b.Sample = true))) := by
  unfold lessGroups
  by_cases hp : priorityRank a.Level = priorityRank b.Level
  · by_cases hc : a.Count = b.Count <;> simp [hp, hc]
  · simp [hp]

/-- The comparator is asymmetric in both modes. -/
theorem lessGroups_asymm (m : Bool) (a b : MessageGroup) (h : lessGroups m a b = true) :
    lessGroups m b a = false := by
  cases m
  · rw [lessGroups_false_iff] at h
    rw [← Bool.not_eq_true, lessGroups_false_iff]
    intro h'
    rcases h with h | ⟨hc, hs⟩ <;> rcases h' with h' | ⟨hc', hs'⟩
    · omega
    · omega
    · omega
    · rw [strLt_asymm _ _ hs] at hs'
      exact Bool.noConfusion hs'
  · rw [lessGroups_true_iff] at h
    rw [← Bool.not_eq_true, lessGroups_true_iff]
    intro h'
    rcases h with h1 | ⟨e1, h1⟩ <;> rcases h' with h2 | ⟨e2, h2⟩
    · omega
    · omega
    · omega
    · rcases h1 with c1 | ⟨ce1, s1⟩ <;> rcases h2 with c2 | ⟨ce2, s2⟩
      · omega
      · omega
      · omega
      · rw [strLt_asymm _ _ s1] at s2
        exact Bool.noConfusion s2

/-- Negative transitivity of the count/sample part of the comparator. -/
theorem freqpart_negtrans (a b c : MessageGroup)
    (h1 : ¬(a.Count < b.Count ∨ (b.Count = a.Count ∧ strLt b.Sample a.Sample = true)))
    (h2 : ¬(b.Count < c.Count ∨ (c.Count = b.Count ∧ strLt c.Sample b.Sample = true))) :
    ¬(a.Count < c.Count ∨ (c.Count = a.Count ∧ strLt c.Sample a.Sample = true)) := by
  push_neg at h1 h2
  obtain ⟨h1a, h1b⟩ := h1
  obtain ⟨h2a, h2b⟩ := h2
  intro h3
  rcases h3 with h3 | ⟨hce, hs⟩
  · omega
  · have hba : b.Count = a.Count := by omega
    have hcb : c.Count = b.Count := by omega
    have hs1 : strLt b.Sample a.Sample = false := by simpa using h1b hba
    have hs2 : strLt c.Sample b.Sample = false := by simpa using h2b hcb
    by_cases hab : strLt a.Sample b.Sample = true
    · have := strLt_trans _ _ _ hs hab
      rw [hs2] at this
      exact Bool.noConfusion this
    · have hab' : strLt a.Sample b.Sample = false := by simpa using hab
      have heq : a.Sample = b.Sample := strLt_conn _ _ hab' hs1
      rw [heq, hs2] at hs
      exact Bool.noConfusion hs

/-- Negative transitivity of the comparator in both modes: if `b` does
not sort strictly before `a` and `c` not strictly before `b`, then `c`
does not sort strictly before `a`. -/
theorem lessGroups_negtrans (m : Bool) (a b c : MessageGroup)
    (h1 : lessGroups m b a = false) (h2 : lessGroups m c b = false) :
    lessGroups m c a = false := by
  cases m
  · rw [← Bool.not_eq_true, lessGroups_false_iff] at h1 h2 ⊢
    exact freqpart_negtrans a b c h1 h2
  · rw [← Bool.not_eq_true, lessGroups_true_iff] at h1 h2 ⊢
    intro h3
    have h1a : ¬priorityRank a.Level < priorityRank b.Level := fun c => h1 (Or.inl c)
    have h1b : priorityRank b.Level = priorityRank a.Level →
        ¬(a.Count < b.Count ∨ (b.Count = a.Count ∧ strLt b.Sample a.Sample = true)) :=
      fun he hf => h1 (Or.inr ⟨he, hf⟩)
    have h2a : ¬priorityRank b.Level < priorityRank c.Level := fun c => h2 (Or.inl c)
    have h2b : priorityRank c.Level = priorityRank b.Level →
        ¬(b.Count < c.Count ∨ (c.Count = b.Count ∧ strLt c.Sample b.Sample = true)) :=
      fun he hf => h2 (Or.inr ⟨he, hf⟩)
    rcases h3 with h3 | ⟨hpe, hfr⟩
    · omega
    · have hba : priorityRank b.Level = priorityRank a.Level := by omega
      have hcb : priorityRank c.Level = priorityRank b.Level := by omega
      exact freqpart_negtrans a b c (h1b hba) (h2b hcb) hfr

instance (m : Bool) : IsTotal MessageGroup (leGroups m) where
  total a b := by
    by_cases h : lessGroups m b a = false
    · exact Or.inl h
    · have ht : lessGroups m b a = true := by simpa using h
      exact Or.inr (lessGroups_asymm m b a ht)

instance (m : Bool) : IsTrans MessageGroup (leGroups m) where
  trans a b c h1 h2 := lessGroups_negtrans m a b c h1 h2

/-- Every pair ordered by the non-strict frequency-mode order satisfies
the spec's frequency order: count descending, equal counts broken by
sample text ascending. -/
theorem leGroups_false_to_freqOrd {a b : MessageGroup} (h : leGroups false a b) :
    freqOrd a b := by
  unfold leGroups at h
  rw [← Bool.not_eq_true, lessGroups_false_iff] at h
  push_neg at h
  obtain ⟨ha, hb⟩ := h
  rcases Nat.lt_trichotomy b.Count a.Count with h1 | h1 | h1
  · exact Or.inl h1
  · exact Or.inr ⟨h1.symm, by simpa [strLe] using hb h1⟩
  · omega

/-- Every pair ordered by the non-strict severity-mode order satisfies
the spec's severity order: severity rank descending, then count
descending, then sample text ascending. -/
theorem leGroups_true_to_sevOrd {a b : MessageGroup} (h : leGroups true a b) :
    sevOrd a b := by
  unfold leGroups at h
  rw [← Bool.not_eq_true, lessGroups_true_iff] at h
  push_neg at h
  obtain ⟨ha, hb⟩ := h
  rcases Nat.lt_trichotomy (priorityRank b.Level) (priorityRank a.Level) with h1 | h1 | h1
  · exact Or.inl h1
  · refine Or.inr ⟨h1.symm, ?_⟩
    have hfr := hb h1
    push_neg at hfr
    obtain ⟨hc, hd⟩ := hfr
    rcases Nat.lt_trichotomy b.Count a.Count with h2 | h2 | h2
    · exact Or.inl h2
    · exact Or.inr ⟨h2.symm, by simpa [strLe] using hd h2⟩
    · omega
  · omega

/-- Claim C3: in the default frequency mode, ranking any finite
collection of groups yields a permutation of it that is pairwise ordered
by count descending with equal counts broken by sample text ascending;
in particular, groups with counts 5, 5, 2 and samples "b", "a", "c" rank
as "a"(5), "b"(5), "c"(2). -/
theorem rank_freq_spec (l : List MessageGroup) :
    (rank false l).Perm l ∧ List.Pairwise freqOrd (rank false l) ∧
      rank false
          [{ Sample := "b", Count := 5, Level := "INFO", Times := [] },
           { Sample := "a", Count := 5, Level := "INFO", Times := [] },
           { Sample := "c", Count := 2, Level := "INFO", Times := [] }] =
        [{ Sample := "a", Count := 5, Level := "INFO", Times := [] },
         { Sample := "b", Count := 5, Level := "INFO", Times := [] },
         { Sample := "c", Count := 2, Level := "INFO", Times := [] }] := by
  refine ⟨List.perm_insertionSort _ l, ?_, by decide⟩
  have hs : List.Sorted (leGroups false) (rank false l) := List.sorted_insertionSort _ l
  exact hs.imp fun h => leGroups_false_to_freqOrd h

/-- Claim C4: in severity mode (errors-only or important view), ranking
any finite collection of groups yields a permutation of it that is
pairwise ordered by severity rank descending (CRIT and ERRO share the
highest rank 3, UNKN has the lowest rank 0), count descending within
equal rank, and sample text ascending on remaining ties; consequently
severity ranks are non-increasing along the output, so every CRIT/ERRO
group precedes every WARN group, which precedes every INFO or UNKN
group. -/
theorem rank_sev_spec (l : List MessageGroup) :
    (rank true l).Perm l ∧ List.Pairwise sevOrd (rank true l) ∧
      List.Pairwise (fun a b => priorityRank b.Level ≤ priorityRank a.Level) (rank true l) ∧
      priorityRank "CRIT" = 3 ∧ priorityRank "ERRO" = 3 ∧ priorityRank "WARN" = 2 ∧
      priorityRank "INFO" = 1 ∧ priorityRank "UNKN" = 0 := by
  have hs : List.Sorted (leGroups true) (rank true l) := List.sorted_insertionSort _ l
  have hp : List.Pairwise sevOrd (rank true l) := hs.imp fun h => leGroups_true_to_sevOrd h
  refine ⟨List.perm_insertionSort _ l, hp, hp.imp ?_, by decide, by decide, by decide,
    by decide, by decide⟩
  intro a b h
  rcases h with h | ⟨h, _⟩
  · exact le_of_lt h
  · exact le_of_eq h.symm

/-- Claim C8: ranking is idempotent — re-ranking an already-ranked
sequence with the same mode returns it unchanged, in both modes. -/
theorem rank_idempotent (m : Bool) (l : List MessageGroup) :
    rank m (rank m l) = rank m l :=
  List.Sorted.insertionSort_eq (List.sorted_insertionSort (leGroups m) l)

/-! ### Scan loop -/

/-- A line that trims to empty, or that the JSON decoder rejects, leaves
the group mapping unchanged. -/
theorem processLine_skip (unmarshal : String → Option (List (String × JValue)))
    (now : Int) (gs : List (String × MessageGroup)) (line : String)
    (h : trimStr line = "" ∨ unmarshal line = none) :
    processLine unmarshal now gs line = gs := by
  unfold processLine
  rcases h with h | h
  · rw [if_pos h]
  · by_cases ht : trimStr line = ""
    · rw [if_pos ht]
    · rw [if_neg ht, h]

/-- A whole stretch of blank or undecodable lines leaves the group
mapping unchanged. -/
theorem processAll_skips (unmarshal : String → Option (List (String × JValue)))
    (gs : List (String × MessageGroup)) :
    ∀ items : List (String × Int),
      (∀ p ∈ items, trimStr p.1 = "" ∨ unmarshal p.1 = none) →
      processAll unmarshal gs items = gs
  | [], _ => rfl
  | p :: items, h => by
    show processAll unmarshal (processLine unmarshal p.2 gs p.1) items = gs
    rw [processLine_skip unmarshal p.2 gs p.1 (h p (List.mem_cons_self _ _))]
    exact processAll_skips unmarshal gs items fun q hq => h q (List.mem_cons_of_mem _ hq)

/-- Splitting the scan loop over a concatenation of line streams. -/
theorem processAll_append (unmarshal : String → Option (List (String × JValue)))
    (gs : List (String × MessageGroup)) (xs ys : List (String × Int)) :
    processAll unmarshal gs (xs ++ ys) = processAll unmarshal (processAll unmarshal gs xs) ys := by
  unfold processAll
  rw [List.foldl_append]

/-- Claim C9: a stream made of blank or whitespace-only lines, lines the
JSON decoder rejects, and exactly one well-formed record line produces a
group mapping with exactly one group, whose message text, severity and
timestamp come from that record; the malformed lines contribute nothing
and the scan runs through the whole stream. -/
theorem pipeline_single_record (unmarshal : String → Option (List (String × JValue)))
    (pre post : List (String × Int)) (good : String) (nowg : Int)
    (raw : List (String × JValue))
    (hskip : ∀ p ∈ pre ++ post, trimStr p.1 = "" ∨ unmarshal p.1 = none)
    (hgood : trimStr good ≠ "") (hraw : unmarshal good = some raw) :
    processAll unmarshal [] (pre ++ (good, nowg) :: post) =
      [((parseRecord raw).message,
        { Sample := (parseRecord raw).message, Count := 1,
          Level := recordPri (parseRecord raw),
          Times := [recordTs nowg (parseRecord raw)] })] := by
  have hpre : ∀ p ∈ pre, trimStr p.1 = "" ∨ unmarshal p.1 = none :=
    fun p hp => hskip p (List.mem_append_left _ hp)
  have hpost : ∀ p ∈ post, trimStr p.1 = "" ∨ unmarshal p.1 = none :=
    fun p hp => hskip p (List.mem_append_right _ hp)
  rw [processAll_append, processAll_skips unmarshal [] pre hpre]
  show processAll unmarshal (processLine unmarshal nowg [] good) post = _
  have hgl : processLine unmarshal nowg [] good =
      [((parseRecord raw).message,
        { Sample := (parseRecord raw).message, Count := 1,
          Level := recordPri (parseRecord raw),
          Times := [recordTs nowg (parseRecord raw)] })] := by
    unfold processLine
    rw [if_neg hgood, hraw]
    rfl
  rw [hgl]
  exact processAll_skips unmarshal _ post hpost

/-- Witness for C9: an empty line, a garbage line, the one well-formed
record line and a whitespace-only line, where the decoder (modelled as
recognizing exactly the good line) yields the record with message
"disk full" and priority token "3".  The result is the single ERRO group
for "disk full", stamped with that line's arrival wall clock 5. -/
theorem pipeline_single_record_app :
    processAll
        (fun l =>
          if l = "MESSAGE=disk full PRIORITY=3" then
            some [("MESSAGE", JValue.str "disk full"), ("PRIORITY", JValue.str "3")]
          else none)
        []
        [("", 1), ("garbage", 2), ("MESSAGE=disk full PRIORITY=3", 5), ("   ", 7)] =
      [("disk full", { Sample := "disk full", Count := 1, Level := "ERRO", Times := [5] })] := by
  have h := pipeline_single_record
    (fun l =>
      if l = "MESSAGE=disk full PRIORITY=3" then
        some [("MESSAGE", JValue.str "disk full"), ("PRIORITY", JValue.str "3")]
      else none)
    [("", 1), ("garbage", 2)] [("   ", 7)] "MESSAGE=disk full PRIORITY=3" 5
    [("MESSAGE", JValue.str "disk full"), ("PRIORITY", JValue.str "3")]
    (by
      intro p hp
      simp only [List.cons_append, List.nil_append, List.mem_cons, List.not_mem_nil,
        or_false] at hp
      rcases hp with rfl | rfl | rfl
      · exact Or.inl rfl
      · exact Or.inr rfl
      · exact Or.inl rfl)
    (by decide) rfl
  exact h
